import Mathlib

/-!
Verification of the resumable transfer engine of miniseed2dmc.

The development shallowly embeds the relevant parts of
`src/miniseed2dmc.c` and `src/edir.c`:

- `FileEntry` mirrors `struct FileLink_s` (offset, size, bytecount,
  recordcount, name); machine integers are modelled as `Nat` (the counters
  are only ever incremented by record lengths and never approach 2^63,
  so wrap-around is irrelevant to the verified properties).
- `streamStep` is one iteration of the record-sending loop of `main`
  (miniseed2dmc.c:317-342): on send success the offset advances by the
  record length and the per-file and session counters are incremented;
  on failure the `restart` flag is raised and nothing is touched.
- `savestate` / `recoverstate` model the state persistence
  (miniseed2dmc.c:612-654 and 664-751) over an explicit file-system map
  and over parsed state lines.
- `sortedirentries` is the bottom-up linked-list merge sort of
  edir.c:170-267, with `namele` playing the role of `strcmp(p,q) <= 0`
  over byte strings.
- `adddirM`/`walkEntries` model the recursive directory walk `adddir`
  (miniseed2dmc.c:1262-1374), including its literal `== -2` test on the
  recursive call's return value.
- `parseLine`/`recoverstateText` model `recoverstate`'s `fgets` line
  reading and `sscanf (line, "%s %lld %lld %llu %llu")` field parsing
  (miniseed2dmc.c:693-705), including the whitespace tokenization of
  `%s` and the fields-short skip path.
- `throttleStep` models the transmission-rate limiter
  (miniseed2dmc.c:284-313) in exact rational arithmetic, including the
  `nanosleep` call that fails with `EINVAL` (and so does not sleep)
  whenever the computed sleep is one second or longer, because the code
  packs the whole duration into `tv_nsec` (lines 307-310).
-/

/-- One input file, mirroring `struct FileLink_s` of miniseed2dmc.c:46-54
(the `next` pointer is replaced by list structure). -/
structure FileEntry where
  name : String
  offset : Nat
  size : Nat
  bytecount : Nat
  recordcount : Nat
deriving DecidableEq

/-- The session-wide counters `totalbytes` and `totalrecords`
(miniseed2dmc.c:78-79). -/
structure Totals where
  totalbytes : Nat
  totalrecords : Nat
deriving DecidableEq

/-- One iteration of the record loop of `main` (miniseed2dmc.c:317-342):
`sendok` is the outcome of `dl_write`.  On success (`else` branch, lines
325-342) the file's offset becomes the record's start position (the
current offset) plus `reclen`, and the per-file and session counters are
incremented; on failure (lines 318-324) `restart` is set and the state is
untouched.  The third component is the `restart` flag. -/
def streamStep (file : FileEntry) (tot : Totals) (reclen : Nat) (sendok : Bool) :
    FileEntry × Totals × Bool :=
  if sendok then
    ({ file with
        offset := file.offset + reclen
        bytecount := file.bytecount + reclen
        recordcount := file.recordcount + 1 },
      { totalbytes := tot.totalbytes + reclen
        totalrecords := tot.totalrecords + 1 },
      false)
  else
    (file, tot, true)

/-- Sending a list of records one after the other, all successfully:
iterated `streamStep` with `sendok = true`. -/
def sendRecords (file : FileEntry) (tot : Totals) : List Nat → FileEntry × Totals
  | [] => (file, tot)
  | r :: rs =>
    sendRecords (streamStep file tot r true).1 (streamStep file tot r true).2.1 rs

/-- Entering the streaming section for one file (miniseed2dmc.c:234-246):
the per-file byte and record counters are reset to zero (lines 236-238)
and then the records found at the file's current offset are sent. -/
def streamFile (file : FileEntry) (tot : Totals) (rs : List Nat) : FileEntry × Totals :=
  sendRecords { file with bytecount := 0, recordcount := 0 } tot rs

/-- The record reader resuming at a byte offset (`ms_readmsr` with the
negative `filepos` convention of miniseed2dmc.c:240-242): a file whose
content is the record-length list `rs` yields, from byte offset `off`,
the remaining records iff `off` is a record boundary; otherwise the read
cannot resume cleanly (`none`). -/
def recordsFromOffset : List Nat → Nat → Option (List Nat)
  | rs, 0 => some rs
  | [], _ + 1 => none
  | r :: rs, off + 1 =>
    if r ≤ off + 1 then recordsFromOffset rs (off + 1 - r) else none

/-- After `quitonerror` handling (miniseed2dmc.c:425-434): following a
`restart` break the session reconnects exactly when neither the stop
signal nor `quitonerror` is set. -/
def reconnectDecision (stopsig quitonerror : Bool) : Bool :=
  !stopsig && !quitonerror

/-- Return codes of `ms_readmsr` that the epilogue of the per-file loop
distinguishes (miniseed2dmc.c:374-385). -/
inductive RetCode where
  | noerror
  | endoffile
  | notseed
  | otherError
deriving DecidableEq

/-- The epilogue after the record loop of one file
(miniseed2dmc.c:374-407): result is (updated file, new stop signal,
whether a fatal error was raised).  Note line 378 sets `bytecount`, not
`offset`, to the file's size. -/
def fileEpilog (file : FileEntry) (retcode : RetCode) (stopsig restart : Bool) :
    FileEntry × Bool × Bool :=
  if retcode = RetCode.notseed ∧ file.bytecount = 0 then
    ({ file with bytecount := file.size }, stopsig, false)
  else if retcode ≠ RetCode.endoffile ∧ stopsig = false ∧ restart = false then
    (file, true, true)
  else
    (file, stopsig, false)

/-- What the loop does after a file's epilogue (miniseed2dmc.c:409-421):
break out to the reconnect logic on `restart`, otherwise advance to the
next file, or stop normally when there is none. -/
inductive NextAction where
  | breakToReconnect
  | advanceToNext
  | stopNormal
deriving DecidableEq

/-- The control decision of miniseed2dmc.c:409-421. -/
def afterFile (restart hasNext : Bool) : NextAction :=
  if restart then NextAction.breakToReconnect
  else if hasNext then NextAction.advanceToNext
  else NextAction.stopNormal

/-- One parsed line of the state file: the five `sscanf` fields of
recoverstate (miniseed2dmc.c:695-696). -/
structure StateLine where
  name : String
  offset : Nat
  size : Nat
  bytecount : Nat
  recordcount : Nat
deriving DecidableEq

/-- The state line `savestate` persists for a file, i.e. the fields
`printfilelist` prints (miniseed2dmc.c:505-510), parsed. -/
def lineOf (f : FileEntry) : StateLine :=
  { name := f.name, offset := f.offset, size := f.size
    bytecount := f.bytecount, recordcount := f.recordcount }

/-- Copying a state line's progress onto an inventory entry
(miniseed2dmc.c:722-724): offset, bytecount and recordcount are copied;
name and size are kept (a size mismatch is only warned about, line 726-728). -/
def updateEntry (f : FileEntry) (ln : StateLine) : FileEntry :=
  { f with offset := ln.offset, bytecount := ln.bytecount, recordcount := ln.recordcount }

/-- The matching loop of `recoverstate` for one state line
(miniseed2dmc.c:707-743): walk the inventory, skip entries whose offset
was already advanced (line 713: `file->offset > 0`), update the first
entry whose name equals the line's name, and fail (`none`, the C code's
`return -1`) when no entry matches. -/
def applyLine : List FileEntry → StateLine → Option (List FileEntry)
  | [], _ => none
  | f :: rest, ln =>
    if 0 < f.offset then (applyLine rest ln).map (f :: ·)
    else if f.name = ln.name then
      some (updateEntry f ln :: rest)
    else
      (applyLine rest ln).map (f :: ·)

/-- Applying every state line in file order (the `while fgets` loop of
recoverstate, miniseed2dmc.c:693-746); the first line that matches no
entry aborts the whole recovery. -/
def applyLines : List FileEntry → List StateLine → Option (List FileEntry)
  | inv, [] => some inv
  | inv, ln :: lns =>
    match applyLine inv ln with
    | none => none
    | some inv2 => applyLines inv2 lns

/-- Return status of `recoverstate` (miniseed2dmc.c:661-662): 1 when
state was recovered, 0 when the state file does not exist, -1 on error. -/
inductive RestoreResult where
  | recovered
  | nostate
  | error
deriving DecidableEq

/-- `recoverstate` (miniseed2dmc.c:664-751): `contents = none` models a
missing state file (`fopen` fails with `ENOENT`, lines 677-687, return 0);
otherwise the parsed lines are matched onto the inventory, and a line
matching no entry is a hard error (lines 737-743, return -1; the caller
`processparam` then exits before any transfer, lines 966-977). -/
def recoverstate (contents : Option (List StateLine)) (inv : List FileEntry) :
    RestoreResult × List FileEntry :=
  match contents with
  | none => (RestoreResult.nostate, inv)
  | some lns =>
    match applyLines inv lns with
    | none => (RestoreResult.error, inv)
    | some inv2 => (RestoreResult.recovered, inv2)

/-- The all-sent check used both by the startup shortcut
(miniseed2dmc.c:152-170) and by the end-of-run summary (lines 469-481):
a file counts as fully sent exactly when its `bytecount` equals its
`size`; the offset is not consulted. -/
def allsent (inv : List FileEntry) : Bool :=
  inv.all fun f => f.bytecount == f.size

/-- A fresh inventory entry as `addfile` creates it
(miniseed2dmc.c:1199-1204): offset and counters start at zero. -/
def initEntry (name : String) (size : Nat) : FileEntry :=
  { name := name, offset := 0, size := size, bytecount := 0, recordcount := 0 }

/-- One uninterrupted run over a single file whose content is the record
list `recs`: fresh entry, fresh session totals, stream everything. -/
def oneRun (name : String) (recs : List Nat) : FileEntry × Totals :=
  streamFile (initEntry name recs.sum) { totalbytes := 0, totalrecords := 0 } recs

/-- A flat file system: path to contents.  Only the state file and its
temporary sibling matter to the savestate model. -/
def FSys : Type := String → Option String

/-- Opening a path with mode "w" and writing `content` to it. -/
def FSys.write (fs : FSys) (path content : String) : FSys :=
  fun p => if p = path then some content else fs p

/-- POSIX `rename(src, dst)`: afterwards `dst` holds what `src` held and
`src` is gone. -/
def FSys.rename (fs : FSys) (src dst : String) : FSys :=
  fun p => if p = src then none else if p = dst then fs src else fs p

/-- The text of one line `printfilelist` writes for a file
(miniseed2dmc.c:505-510): path, offset, size, bytecount, recordcount,
tab separated, newline terminated. -/
def stateLineText (f : FileEntry) : String :=
  f.name ++ "\t" ++ toString f.offset ++ "\t" ++ toString f.size ++ "\t"
    ++ toString f.bytecount ++ "\t" ++ toString f.recordcount ++ "\n"

/-- `printfilelist` (miniseed2dmc.c:498-516): the whole-inventory
snapshot, one line per file. -/
def printfilelist (inv : List FileEntry) : String :=
  String.join (inv.map stateLineText)

/-- The whitespace characters of C's `isspace` in the POSIX locale: what
`sscanf`'s `%s` conversion stops at and what its inter-field whitespace
skipping consumes (miniseed2dmc.c:695). -/
def isWhite (c : Char) : Bool :=
  c = ' ' || c = '\t' || c = '\n' || c = '\r' || c = '\x0b' || c = '\x0c'

/-- The newline test used to model `fgets`: each call returns one
'\n'-terminated chunk of the state file. -/
def isNL (c : Char) : Bool :=
  c = '\n'

/-- Split a character list at every character satisfying `p`, keeping
empty pieces: the result is (first piece, later pieces). -/
def splitOnPred (p : Char → Bool) : List Char → List Char × List (List Char)
  | [] => ([], [])
  | c :: rest =>
    if p c then ([], (splitOnPred p rest).1 :: (splitOnPred p rest).2)
    else (c :: (splitOnPred p rest).1, (splitOnPred p rest).2)

/-- The whitespace-delimited tokens of a line, in order, as successive
`sscanf` conversions consume them (runs of whitespace collapse, so empty
pieces are dropped). -/
def tokensOf (l : List Char) : List (List Char) :=
  ((splitOnPred isWhite l).1 :: (splitOnPred isWhite l).2).filter fun w => w ≠ []

/-- A numeric `sscanf` conversion applied to one whitespace-delimited
token: it succeeds on a nonempty run of decimal digits, the only shape
`savestate` ever writes for the four numeric fields (machine integers
again as `Nat`: signs and overflow are out of the verified scope). -/
def parseNat (w : List Char) : Option Nat :=
  if w ≠ [] ∧ w.all Char.isDigit then
    some (w.foldl (fun n c => 10 * n + (c.toNat - 48)) 0)
  else none

/-- The `sscanf (line, "%s %lld %lld %llu %llu", ...)` parse of one state
file line (miniseed2dmc.c:695-696): `%s` takes the first whitespace-
delimited token — a path containing a space is therefore cut at the
space — and each numeric conversion must find a number next.  `none`
models `fields < 5` (including `fields < 0` for an empty line), which
`recoverstate` skips (miniseed2dmc.c:698-705). -/
def parseLine (line : List Char) : Option StateLine :=
  match tokensOf line with
  | name :: t1 :: t2 :: t3 :: t4 :: _ =>
    match parseNat t1, parseNat t2, parseNat t3, parseNat t4 with
    | some o, some sz, some bc, some rc =>
      some { name := String.mk name, offset := o, size := sz,
             bytecount := bc, recordcount := rc }
    | _, _, _, _ => none
  | _ => none

/-- The `while fgets` loop of `recoverstate` over the state file's lines
(miniseed2dmc.c:693-746): a line that does not parse to five fields is
skipped with a warning; a parsed line that matches no inventory entry is
the hard error. -/
def applyParsedLines : List FileEntry → List (List Char) → Option (List FileEntry)
  | inv, [] => some inv
  | inv, line :: rest =>
    match parseLine line with
    | none => applyParsedLines inv rest
    | some ln =>
      match applyLine inv ln with
      | none => none
      | some inv2 => applyParsedLines inv2 rest

/-- `recoverstate` operating on the state file's actual text: the text is
cut into `fgets` lines at each newline (the terminating newline itself is
whitespace to `sscanf`, so splitting it off changes no token), each line
is parsed, and the lines are applied in order. -/
def recoverstateText (contents : Option String) (inv : List FileEntry) :
    RestoreResult × List FileEntry :=
  match contents with
  | none => (RestoreResult.nostate, inv)
  | some text =>
    match applyParsedLines inv
        ((splitOnPred isNL text.toList).1 :: (splitOnPred isNL text.toList).2) with
    | none => (RestoreResult.error, inv)
    | some inv2 => (RestoreResult.recovered, inv2)

/-- The decimal digit string of a natural number: the logical content of
`Nat.toDigitsCore` at base 10 with sufficient fuel, i.e. what `printf`'s
`%lld` prints for the (non-negative) counters. -/
def natDigits (n : Nat) : List Char :=
  if h : n < 10 then [Nat.digitChar n]
  else natDigits (n / 10) ++ [Nat.digitChar (n % 10)]
  termination_by n
  decreasing_by exact Nat.div_lt_self (by omega) (by omega)

/-- Two runs split after `k` records: run 1 streams the first `k`
records and is interrupted (stop signal); `savestate` writes the
`printfilelist` text of the inventory to the state file; the process
restarts with a freshly built inventory and fresh session totals,
`recoverstateText` reads the state file text back through the
`fgets`/`sscanf` parse, and run 2 resumes reading at the restored
offset. -/
def twoRun (name : String) (recs : List Nat) (k : Nat) :
    (FileEntry × Totals) × (FileEntry × Totals) :=
  let run1 := streamFile (initEntry name recs.sum)
    { totalbytes := 0, totalrecords := 0 } (recs.take k)
  let inv2 := (recoverstateText (some (printfilelist [run1.1]))
    [initEntry name recs.sum]).2
  let f2 := inv2.headD (initEntry name recs.sum)
  let rest := (recordsFromOffset recs f2.offset).getD []
  (run1, streamFile f2 { totalbytes := 0, totalrecords := 0 } rest)

/-- The temporary state file name of `savestate` (miniseed2dmc.c:622):
the state file name with a ".tmp" extension, hence a sibling in the same
directory. -/
def tmpName (statefile : String) : String :=
  statefile ++ ".tmp"

/-- The file system as `savestate` leaves it when the process is killed
after `i` lines of the inventory have been written to the temporary file
(miniseed2dmc.c:633-641), i.e. before the `rename` of line 646.  `i = 0`
is the state just after `fopen(..., "w")` truncated the temporary file. -/
def savestateMid (fs : FSys) (statefile : String) (inv : List FileEntry) (i : Nat) : FSys :=
  FSys.write fs (tmpName statefile) (printfilelist (inv.take i))

/-- `savestate` run to completion (miniseed2dmc.c:612-654): guard against
a truncated temporary name (lines 622-630, `sizeof tmpstatefile` is 255),
write the whole snapshot to the temporary file, then rename it over the
state file.  Returns the resulting file system and whether it succeeded. -/
def savestate (fs : FSys) (statefile : String) (inv : List FileEntry) : FSys × Bool :=
  if 255 ≤ (tmpName statefile).length then (fs, false)
  else
    (FSys.rename (FSys.write fs (tmpName statefile) (printfilelist inv))
      (tmpName statefile) statefile, true)

/-- The directory part of a path (everything up to and including the last
'/'; the program assumes '/' as separator, miniseed2dmc.c:11). -/
def dirOf (s : String) : String :=
  String.mk ((s.toList.reverse.dropWhile fun c => c != '/').reverse)

/-- State of the rate limiter (miniseed2dmc.c:284-313), in exact rational
arithmetic: elapsed wall-clock seconds since `procstart` and the session's
`totalbytes` counter. -/
structure ThrottleState where
  elapsed : ℚ
  totalbytes : ℚ
deriving DecidableEq

/-- One throttled send (miniseed2dmc.c:284-313 followed by the counter
update of line 334): `delay` is whatever wall-clock time passed since the
previous send before the throttle check runs (reading the record, network
time, ...).  `totalbits` counts the pending record (line 287); if the
implied session-lifetime average rate would exceed `maxrate` (line 296),
the process attempts to sleep `rateinterval = totalbits / maxrate -
interval` seconds (lines 299-311).  The sleep is issued as
`naptime.tv_sec = 0; naptime.tv_nsec = rateinterval * 1e9` (lines
308-309): when `rateinterval < 1` the nanosleep succeeds and the send
happens exactly when the elapsed time reaches `totalbits / maxrate`
(sub-nanosecond truncation idealized away); when `1 ≤ rateinterval` the
`tv_nsec` field is at least 10^9, `nanosleep` fails with `EINVAL` (its
return value is not checked) and no sleep at all takes place. -/
def throttleStep (maxrate : ℚ) (st : ThrottleState) (reclen delay : ℚ) : ThrottleState :=
  let interval := st.elapsed + delay
  let totalbits := (st.totalbytes + reclen) * 8
  let elapsed2 :=
    if interval = 0 ∨ maxrate < totalbits / interval then
      if 0 < totalbits / maxrate - interval then
        if totalbits / maxrate - interval < 1 then totalbits / maxrate
        else interval
      else interval
    else interval
  { elapsed := elapsed2, totalbytes := st.totalbytes + reclen }

/-- A whole session of throttled sends, one `(reclen, delay)` pair per
record. -/
def throttleRun (maxrate : ℚ) (st : ThrottleState) : List (ℚ × ℚ) → ThrottleState
  | [] => st
  | (reclen, delay) :: rest => throttleRun maxrate (throttleStep maxrate st reclen delay) rest

/-- A node of the file tree `adddir` walks: a regular file with its size,
or a directory with its entries; `openable = false` models a directory
`eopendir` cannot open (miniseed2dmc.c:1288). -/
inductive FsNode where
  | fileNode (name : String) (size : Nat)
  | dirNode (name : String) (openable : Bool) (entries : List FsNode)

mutual

/-- `adddir` on one directory (miniseed2dmc.c:1262-1374): fail with -1
when the directory cannot be opened (lines 1288-1299), else walk its
entries (which `eopendir` yields in sorted order).  `acc` is the global
`filelist` being appended to; the result is the return code and the list. -/
def adddirM (level : Int) (dlevel : Nat) (openable : Bool) (entries : List FsNode)
    (acc : List (String × Nat)) : Int × List (String × Nat) :=
  if openable = false then (-1, acc)
  else walkEntries level dlevel entries acc

/-- The `while ereaddir` loop of `adddir` (miniseed2dmc.c:1301-1360):
regular files are appended via `addfile`; a sub-directory is recursed
into when within the recursion limit (line 1335), and the recursive
call's result is compared against -2 (line 1340) — faithfully kept,
although `adddir` only ever returns 0 or -1. -/
def walkEntries (level : Int) (dlevel : Nat) (entries : List FsNode)
    (acc : List (String × Nat)) : Int × List (String × Nat) :=
  match entries with
  | [] => (0, acc)
  | FsNode.fileNode name size :: rest =>
    walkEntries level dlevel rest (acc ++ [(name, size)])
  | FsNode.dirNode _ op ents :: rest =>
    if level < 0 ∨ (dlevel : Int) < level then
      if (adddirM level (dlevel + 1) op ents acc).1 = -2 then
        (-1, (adddirM level (dlevel + 1) op ents acc).2)
      else walkEntries level dlevel rest (adddirM level (dlevel + 1) op ents acc).2
    else walkEntries level dlevel rest acc

end

/-- `addfile` on a root argument (miniseed2dmc.c:1182-1188): a directory
root is expanded by `adddir`, and a nonzero return aborts the whole
construction (`if (adddir(...)) return -1`); a regular file is appended. -/
def addfileRoot (level : Int) (node : FsNode) : Int × List (String × Nat) :=
  match node with
  | FsNode.fileNode name size => (0, [(name, size)])
  | FsNode.dirNode _ op ents =>
    if (adddirM level 0 op ents []).1 = 0 then (0, (adddirM level 0 op ents []).2)
    else (-1, (adddirM level 0 op ents []).2)

/-- A directory entry name as `strcmp` sees it: its byte string. -/
abbrev EntryName := List Nat

/-- The comparator of `sortedirentries` (edir.c:227): `namele a b` is
`strcmp(a, b) <= 0` over byte strings compared as unsigned chars. -/
def namele : EntryName → EntryName → Bool
  | [], _ => true
  | _ :: _, [] => false
  | a :: as, b :: bs =>
    if a < b then true else if b < a then false else namele as bs

/-- The comparator as a relation, for sortedness statements. -/
def nameLE (a b : EntryName) : Prop :=
  namele a b = true

/-- The inner merge loop of `sortedirentries` (edir.c:212-248): merge two
runs, taking from the left run when `strcmp(p, q) <= 0` (so ties keep the
left run's element first, line 227-228). -/
def mergeRun : List EntryName → List EntryName → List EntryName
  | [], qs => qs
  | p :: ps, [] => p :: ps
  | p :: ps, q :: qs =>
    if namele p q then p :: mergeRun ps (q :: qs)
    else q :: mergeRun (p :: ps) qs
  termination_by a b => a.length + b.length

/-- One pass of the bottom-up merge sort (the `while (p)` loop of
edir.c:192-252): merge adjacent runs of size `insize = k`, returning the
merged list and `nmerges`, the number of merges performed in the pass. -/
def mergePass (k : Nat) (hk : 0 < k) : List EntryName → List EntryName × Nat
  | [] => ([], 0)
  | x :: xs =>
    (mergeRun ((x :: xs).take k) (((x :: xs).drop k).take k) ++
        (mergePass k hk (((x :: xs).drop k).drop k)).1,
      (mergePass k hk (((x :: xs).drop k).drop k)).2 + 1)
  termination_by l => l.length
  decreasing_by simp; omega

theorem namele_refl (a : EntryName) : namele a a = true := by
  induction a with
  | nil => rfl
  | cons x xs ih => simp [namele, ih]

theorem namele_cons_iff (x y : Nat) (xs ys : EntryName) :
    namele (x :: xs) (y :: ys) = true ↔ x < y ∨ (x = y ∧ namele xs ys = true) := by
  simp only [namele]
  by_cases h1 : x < y
  · simp [h1]
  · by_cases h2 : y < x
    · simp [h1, h2]
      omega
    · have hxy : x = y := by omega
      subst hxy
      simp [h1, h2]

theorem namele_total (a b : EntryName) : namele a b = true ∨ namele b a = true := by
  induction a generalizing b with
  | nil => exact Or.inl rfl
  | cons x xs ih =>
    cases b with
    | nil => exact Or.inr rfl
    | cons y ys =>
      rw [namele_cons_iff, namele_cons_iff]
      rcases Nat.lt_trichotomy x y with h | h | h
      · exact Or.inl (Or.inl h)
      · rcases ih ys with h2 | h2
        · exact Or.inl (Or.inr ⟨h, h2⟩)
        · exact Or.inr (Or.inr ⟨h.symm, h2⟩)
      · exact Or.inr (Or.inl h)

theorem namele_trans (a b c : EntryName) (hab : namele a b = true)
    (hbc : namele b c = true) : namele a c = true := by
  induction a generalizing b c with
  | nil => rfl
  | cons x xs ih =>
    cases b with
    | nil => simp [namele] at hab
    | cons y ys =>
      cases c with
      | nil => simp [namele] at hbc
      | cons z zs =>
        rw [namele_cons_iff] at hab hbc ⊢
        rcases hab with h | ⟨h, h2⟩ <;> rcases hbc with h3 | ⟨h3, h4⟩
        · exact Or.inl (by omega)
        · exact Or.inl (by omega)
        · exact Or.inl (by omega)
        · exact Or.inr ⟨by omega, ih ys zs h2 h4⟩

theorem namele_antisymm (a b : EntryName) (hab : namele a b = true)
    (hba : namele b a = true) : a = b := by
  induction a generalizing b with
  | nil =>
    cases b with
    | nil => rfl
    | cons y ys => simp [namele] at hba
  | cons x xs ih =>
    cases b with
    | nil => simp [namele] at hab
    | cons y ys =>
      rw [namele_cons_iff] at hab hba
      rcases hab with h | ⟨h, h2⟩
      · rcases hba with h3 | ⟨h3, h4⟩ <;> omega
      · rcases hba with h3 | ⟨h3, h4⟩
        · omega
        · rw [h, ih ys h2 h4]

theorem mergeRun_nil_right (a : List EntryName) : mergeRun a [] = a := by
  cases a <;> simp [mergeRun]

theorem mergeRun_cons_cons (p q : EntryName) (ps qs : List EntryName) :
    mergeRun (p :: ps) (q :: qs) =
      if namele p q then p :: mergeRun ps (q :: qs)
      else q :: mergeRun (p :: ps) qs := by
  rw [mergeRun]

theorem mergeRun_perm (a b : List EntryName) : (mergeRun a b).Perm (a ++ b) := by
  induction a generalizing b with
  | nil => simp [mergeRun]
  | cons p ps ih =>
    induction b with
    | nil => simp [mergeRun_nil_right]
    | cons q qs ihb =>
      rw [mergeRun_cons_cons]
      by_cases h : namele p q = true
      · simpa [h] using (ih (q :: qs)).cons p
      · rw [if_neg (by simpa using h)]
        exact (ihb.cons q).trans List.perm_middle.symm

theorem mergeRun_length (a b : List EntryName) :
    (mergeRun a b).length = a.length + b.length := by
  simpa using (mergeRun_perm a b).length_eq

theorem mergeRun_sorted (a b : List EntryName) (ha : List.Sorted nameLE a)
    (hb : List.Sorted nameLE b) : List.Sorted nameLE (mergeRun a b) := by
  induction a generalizing b with
  | nil => simpa [mergeRun] using hb
  | cons p ps ih =>
    induction b with
    | nil => simpa [mergeRun_nil_right] using ha
    | cons q qs ihb =>
      obtain ⟨ha1, ha2⟩ := List.sorted_cons.mp ha
      obtain ⟨hb1, hb2⟩ := List.sorted_cons.mp hb
      rw [mergeRun_cons_cons]
      by_cases h : namele p q = true
      · rw [if_pos h]
        rw [List.sorted_cons]
        refine ⟨?_, ih (q :: qs) ha2 hb⟩
        intro z hz
        rcases List.mem_append.mp ((mergeRun_perm ps (q :: qs)).mem_iff.mp hz) with h1 | h1
        · exact ha1 z h1
        · rcases List.mem_cons.mp h1 with rfl | h2
          · exact h
          · exact namele_trans _ _ _ h (hb1 z h2)
      · have hqp : namele q p = true := (namele_total p q).resolve_left h
        rw [if_neg (by simpa using h)]
        rw [List.sorted_cons]
        refine ⟨?_, ihb hb2⟩
        intro z hz
        rcases List.mem_append.mp ((mergeRun_perm (p :: ps) qs).mem_iff.mp hz) with h1 | h1
        · rcases List.mem_cons.mp h1 with rfl | h2
          · exact hqp
          · exact namele_trans _ _ _ hqp (ha1 z h2)
        · exact hb1 z h1

/-- The shape invariant of the bottom-up merge sort: the list is a
concatenation of sorted runs of length exactly `k`, except that the last
run may be shorter.  `mergePass k` turns `Runs k` into `Runs (2 * k)`. -/
inductive Runs (k : Nat) : List EntryName → Prop
  | nil : Runs k []
  | cons (a rest : List EntryName) (hne : a ≠ []) (hlen : a.length ≤ k)
      (hfull : a.length = k ∨ rest = []) (hs : List.Sorted nameLE a)
      (hr : Runs k rest) : Runs k (a ++ rest)

theorem runs_one (l : List EntryName) : Runs 1 l := by
  induction l with
  | nil => exact Runs.nil
  | cons x xs ih =>
    exact Runs.cons [x] xs (by simp) (by simp) (Or.inl rfl) (List.sorted_singleton x) ih

theorem runs_sorted (m : Nat) (l : List EntryName) (h : Runs m l)
    (hl : l.length ≤ m) : List.Sorted nameLE l := by
  cases h with
  | nil => simp
  | cons a rest hne hlen hfull hs hr =>
    rcases hfull with hf | rfl
    · have hrest : rest = [] := by
        rw [List.length_append] at hl
        exact List.eq_nil_of_length_eq_zero (by omega)
      subst hrest
      simpa using hs
    · simpa using hs

theorem mergePass_nil (k : Nat) (hk : 0 < k) : mergePass k hk [] = ([], 0) := by
  rw [mergePass]

theorem mergePass_cons (k : Nat) (hk : 0 < k) (l : List EntryName) (hl : l ≠ []) :
    mergePass k hk l =
      (mergeRun (l.take k) ((l.drop k).take k) ++
          (mergePass k hk ((l.drop k).drop k)).1,
        (mergePass k hk ((l.drop k).drop k)).2 + 1) := by
  cases l with
  | nil => simp at hl
  | cons x xs => rw [mergePass]

theorem mergePass_perm (k : Nat) (hk : 0 < k) (l : List EntryName) :
    ((mergePass k hk l).1).Perm l := by
  cases l with
  | nil => simp [mergePass_nil]
  | cons x xs =>
    rw [mergePass_cons k hk _ (by simp)]
    have hrec := mergePass_perm k hk (((x :: xs).drop k).drop k)
    refine ((mergeRun_perm _ _).append hrec).trans ?_
    rw [List.append_assoc, List.take_append_drop, List.take_append_drop]
  termination_by l.length
  decreasing_by simp; omega

theorem mergePass_length (k : Nat) (hk : 0 < k) (l : List EntryName) :
    ((mergePass k hk l).1).length = l.length :=
  (mergePass_perm k hk l).length_eq

theorem mergePass_fst (k : Nat) (hk : 0 < k) (l : List EntryName) (hl : l ≠ []) :
    (mergePass k hk l).1 =
      mergeRun (l.take k) ((l.drop k).take k) ++
        (mergePass k hk ((l.drop k).drop k)).1 := by
  rw [mergePass_cons k hk l hl]

theorem mergePass_snd (k : Nat) (hk : 0 < k) (l : List EntryName) (hl : l ≠ []) :
    (mergePass k hk l).2 = (mergePass k hk ((l.drop k).drop k)).2 + 1 := by
  rw [mergePass_cons k hk l hl]

theorem mergePass_snd_zero (k : Nat) (hk : 0 < k) (l : List EntryName)
    (h : (mergePass k hk l).2 = 0) : l = [] := by
  cases l with
  | nil => rfl
  | cons x xs => rw [mergePass_snd k hk _ (by simp)] at h; omega

theorem mergePass_snd_le_one (k : Nat) (hk : 0 < k) (l : List EntryName)
    (h : (mergePass k hk l).2 ≤ 1) : l.length ≤ 2 * k := by
  cases l with
  | nil => simp
  | cons x xs =>
    rw [mergePass_snd k hk _ (by simp)] at h
    have h2 := mergePass_snd_zero k hk (((x :: xs).drop k).drop k) (by omega)
    have h3 := congrArg List.length h2
    simp only [List.length_drop, List.length_nil, List.length_cons] at h3 ⊢
    omega

theorem mergePass_two_le (k : Nat) (hk : 0 < k) (l : List EntryName)
    (h : 2 ≤ (mergePass k hk l).2) : 2 * k < l.length := by
  cases l with
  | nil => rw [mergePass_nil] at h; omega
  | cons x xs =>
    rw [mergePass_snd k hk _ (by simp)] at h
    have hne : ((x :: xs).drop k).drop k ≠ [] := by
      intro hnil
      rw [hnil, mergePass_nil] at h
      omega
    have hpos := List.length_pos.mpr hne
    simp only [List.length_drop, List.length_cons] at hpos ⊢
    omega

theorem mergePass_runs_aux (k : Nat) (hk : 0 < k) :
    ∀ (n : Nat) (l : List EntryName), l.length ≤ n → Runs k l →
      Runs (2 * k) (mergePass k hk l).1 := by
  intro n
  induction n with
  | zero =>
    intro l hl h
    have hnil : l = [] := List.eq_nil_of_length_eq_zero (by omega)
    subst hnil
    rw [mergePass_nil]
    exact Runs.nil
  | succ n ih =>
    intro l hl h
    cases h with
    | nil => rw [mergePass_nil]; exact Runs.nil
    | cons a rest hne hlen hfull hs hr =>
      rw [mergePass_fst k hk _ (by simp [hne])]
      rcases hfull with hf | rfl
      · rw [List.take_left' hf, List.drop_left' hf]
        cases hr with
        | nil =>
          simp only [List.take_nil, List.drop_nil, mergePass_nil, mergeRun_nil_right]
          simpa using Runs.cons a [] hne (by omega) (Or.inr rfl) hs Runs.nil
        | cons b rest2 hneb hlenb hfullb hsb hrb =>
          rcases hfullb with hfb | rfl
          · rw [List.take_left' hfb, List.drop_left' hfb]
            have hrec : Runs (2 * k) (mergePass k hk rest2).1 := by
              refine ih rest2 ?_ hrb
              have h1 := List.length_pos.mpr hne
              rw [List.length_append, List.length_append] at hl
              omega
            have hne3 : mergeRun a b ≠ [] := by
              apply List.ne_nil_of_length_pos
              rw [mergeRun_length]
              have := List.length_pos.mpr hne
              omega
            exact Runs.cons (mergeRun a b) _ hne3 (by rw [mergeRun_length]; omega)
              (Or.inl (by rw [mergeRun_length]; omega))
              (mergeRun_sorted a b hs hsb) hrec
          · rw [List.append_nil, List.take_of_length_le hlenb,
              List.drop_eq_nil_of_le hlenb, mergePass_nil]
            have hne3 : mergeRun a b ≠ [] := by
              apply List.ne_nil_of_length_pos
              rw [mergeRun_length]
              have := List.length_pos.mpr hne
              omega
            simpa using Runs.cons (mergeRun a b) [] hne3
              (by rw [mergeRun_length]; omega) (Or.inr rfl)
              (mergeRun_sorted a b hs hsb) Runs.nil
      · rw [List.append_nil, List.take_of_length_le hlen,
          List.drop_eq_nil_of_le hlen]
        simp only [List.take_nil, List.drop_nil, mergePass_nil, mergeRun_nil_right]
        simpa using Runs.cons a [] hne (by omega) (Or.inr rfl) hs Runs.nil

theorem mergePass_runs (k : Nat) (hk : 0 < k) (l : List EntryName) (h : Runs k l) :
    Runs (2 * k) (mergePass k hk l).1 :=
  mergePass_runs_aux k hk l.length l (le_refl _) h

/-- The outer loop of `sortedirentries` (edir.c:184-266): repeat merge
passes with doubling run size until a pass performs at most one merge
(edir.c:257). -/
def sortLoop (k : Nat) (hk : 0 < k) (l : List EntryName) : List EntryName :=
  if h : (mergePass k hk l).2 ≤ 1 then (mergePass k hk l).1
  else sortLoop (2 * k) (by omega) (mergePass k hk l).1
  termination_by l.length - k
  decreasing_by
    rw [mergePass_length]
    have := mergePass_two_le k hk l (by omega)
    omega

/-- `sortedirentries` (edir.c:170-267): the bottom-up merge sort starting
with runs of size 1 (`insize = 1`, edir.c:182). -/
def sortedirentries (l : List EntryName) : List EntryName :=
  sortLoop 1 (by omega) l

theorem sortLoop_correct (k : Nat) (hk : 0 < k) (l : List EntryName) (h : Runs k l) :
    List.Sorted nameLE (sortLoop k hk l) ∧ (sortLoop k hk l).Perm l := by
  rw [sortLoop]
  split
  · next hc =>
    refine ⟨?_, mergePass_perm k hk l⟩
    refine runs_sorted (2 * k) _ (mergePass_runs k hk l h) ?_
    rw [mergePass_length]
    exact mergePass_snd_le_one k hk l hc
  · next hc =>
    have hrec := sortLoop_correct (2 * k) (by omega) (mergePass k hk l).1
      (mergePass_runs k hk l h)
    exact ⟨hrec.1, hrec.2.trans (mergePass_perm k hk l)⟩
  termination_by l.length - k
  decreasing_by
    rw [mergePass_length]
    have := mergePass_two_le k hk l (by omega)
    omega

theorem sendRecords_spec (rs : List Nat) (f : FileEntry) (t : Totals) :
    (sendRecords f t rs).1 =
      { name := f.name, offset := f.offset + rs.sum, size := f.size,
        bytecount := f.bytecount + rs.sum,
        recordcount := f.recordcount + rs.length } ∧
    (sendRecords f t rs).2 =
      { totalbytes := t.totalbytes + rs.sum,
        totalrecords := t.totalrecords + rs.length } := by
  induction rs generalizing f t with
  | nil => simp [sendRecords]
  | cons r rs ih =>
    obtain ⟨h1, h2⟩ := ih (streamStep f t r true).1 (streamStep f t r true).2.1
    refine ⟨?_, ?_⟩
    · rw [show sendRecords f t (r :: rs) =
        sendRecords (streamStep f t r true).1 (streamStep f t r true).2.1 rs from rfl, h1]
      simp [streamStep]
      omega
    · rw [show sendRecords f t (r :: rs) =
        sendRecords (streamStep f t r true).1 (streamStep f t r true).2.1 rs from rfl, h2]
      simp [streamStep]
      omega

theorem recordsFromOffset_zero (rs : List Nat) : recordsFromOffset rs 0 = some rs := by
  cases rs <;> rfl

theorem recordsFromOffset_add (r : Nat) (rs : List Nat) (off : Nat) (hr : 0 < r) :
    recordsFromOffset (r :: rs) (r + off) = recordsFromOffset rs off := by
  obtain ⟨m, rfl⟩ := Nat.exists_eq_succ_of_ne_zero (Nat.pos_iff_ne_zero.mp hr)
  have hform : m + 1 + off = (m + off) + 1 := by omega
  rw [hform]
  show (if m + 1 ≤ m + off + 1 then recordsFromOffset rs (m + off + 1 - (m + 1))
    else none) = recordsFromOffset rs off
  rw [if_pos (by omega)]
  congr 1
  omega

theorem recordsFromOffset_boundary (recs : List Nat) (k : Nat)
    (hpos : ∀ r ∈ recs, 0 < r) :
    recordsFromOffset recs ((recs.take k).sum) = some (recs.drop k) := by
  induction recs generalizing k with
  | nil => simp [recordsFromOffset_zero]
  | cons r rs ih =>
    cases k with
    | zero => simp [recordsFromOffset_zero]
    | succ k =>
      rw [List.take_succ_cons, List.sum_cons, recordsFromOffset_add r rs _
        (hpos r (List.mem_cons_self r rs))]
      rw [List.drop_succ_cons]
      exact ih k fun x hx => hpos x (List.mem_cons_of_mem r hx)

theorem applyLine_none_of_no_match (inv : List FileEntry) (ln : StateLine)
    (h : ∀ f ∈ inv, f.name ≠ ln.name) : applyLine inv ln = none := by
  induction inv with
  | nil => rfl
  | cons f rest ih =>
    have hrest := ih fun g hg => h g (List.mem_cons_of_mem f hg)
    by_cases hoff : 0 < f.offset
    · simp [applyLine, hoff, hrest]
    · simp [applyLine, hoff, hrest, h f (List.mem_cons_self f rest)]

theorem applyLine_names (inv : List FileEntry) (ln : StateLine)
    (inv2 : List FileEntry) (h : applyLine inv ln = some inv2) :
    inv2.map (fun f => f.name) = inv.map (fun f => f.name) := by
  induction inv generalizing inv2 with
  | nil => simp [applyLine] at h
  | cons f rest ih =>
    by_cases hoff : 0 < f.offset
    · simp only [applyLine, if_pos hoff, Option.map_eq_some'] at h
      obtain ⟨rest2, hr, rfl⟩ := h
      simp [ih rest2 hr]
    · by_cases hname : f.name = ln.name
      · simp only [applyLine, if_neg hoff, if_pos hname, Option.some_inj] at h
        subst h
        simp [updateEntry]
      · simp only [applyLine, if_neg hoff, if_neg hname, Option.map_eq_some'] at h
        obtain ⟨rest2, hr, rfl⟩ := h
        simp [ih rest2 hr]

theorem applyLines_names (lns : List StateLine) (inv inv2 : List FileEntry)
    (h : applyLines inv lns = some inv2) :
    inv2.map (fun f => f.name) = inv.map (fun f => f.name) := by
  induction lns generalizing inv with
  | nil => simp [applyLines] at h; rw [h]
  | cons ln lns ih =>
    simp only [applyLines] at h
    cases hline : applyLine inv ln with
    | none => rw [hline] at h; simp at h
    | some invx =>
      rw [hline] at h
      exact (ih invx h).trans (applyLine_names inv ln invx hline)

theorem applyLines_error_of_no_match (pre : List StateLine) (ln : StateLine)
    (suf : List StateLine) (inv : List FileEntry)
    (h : ∀ f ∈ inv, f.name ≠ ln.name) :
    applyLines inv (pre ++ ln :: suf) = none := by
  induction pre generalizing inv with
  | nil =>
    simp only [List.nil_append, applyLines]
    rw [applyLine_none_of_no_match inv ln h]
  | cons p pre ih =>
    simp only [List.cons_append, applyLines]
    cases hline : applyLine inv p with
    | none => rfl
    | some invx =>
      refine ih invx fun g hg hgn => ?_
      have hnames := applyLine_names inv p invx hline
      have : g.name ∈ invx.map (fun f => f.name) := List.mem_map_of_mem _ hg
      rw [hnames] at this
      obtain ⟨g2, hg2, hg2n⟩ := List.mem_map.mp this
      exact h g2 hg2 (hg2n.trans hgn)

theorem dropWhile_append_of_all {p : Char → Bool} (xs ys : List Char)
    (h : ∀ a ∈ xs, p a = true) :
    List.dropWhile p (xs ++ ys) = List.dropWhile p ys := by
  induction xs with
  | nil => rfl
  | cons x xs ih =>
    rw [List.cons_append, List.dropWhile_cons, if_pos (h x (List.mem_cons_self x xs))]
    exact ih fun a ha => h a (List.mem_cons_of_mem x ha)

theorem dirOf_tmpName (s : String) : dirOf (tmpName s) = dirOf s := by
  unfold dirOf tmpName
  have htl : (s ++ ".tmp").toList = s.toList ++ (".tmp").toList :=
    String.data_append s ".tmp"
  rw [htl, List.reverse_append]
  rw [dropWhile_append_of_all (".tmp").toList.reverse s.toList.reverse (by decide)]

theorem tmpName_ne (s : String) : tmpName s ≠ s := by
  intro h
  have hlen := congrArg String.length h
  rw [tmpName, String.length_append] at hlen
  have h4 : (".tmp" : String).length = 4 := by decide
  omega

theorem streamFile_spec (f : FileEntry) (t : Totals) (rs : List Nat) :
    (streamFile f t rs).1 =
      { name := f.name, offset := f.offset + rs.sum, size := f.size,
        bytecount := rs.sum, recordcount := rs.length } ∧
    (streamFile f t rs).2 =
      { totalbytes := t.totalbytes + rs.sum,
        totalrecords := t.totalrecords + rs.length } := by
  obtain ⟨h1, h2⟩ := sendRecords_spec rs { f with bytecount := 0, recordcount := 0 } t
  exact ⟨by rw [streamFile, h1]; simp, by rw [streamFile, h2]⟩

theorem FSys.write_self (fs : FSys) (path c : String) :
    FSys.write fs path c path = some c := by
  simp [FSys.write]

theorem FSys.write_other (fs : FSys) (path c p : String) (h : p ≠ path) :
    FSys.write fs path c p = fs p := by
  simp [FSys.write, h]

theorem FSys.rename_dst (fs : FSys) (src dst : String) (h : dst ≠ src) :
    FSys.rename fs src dst dst = fs src := by
  simp [FSys.rename, h]

theorem applyLine_characterization (inv : List FileEntry) (ln : StateLine)
    (inv2 : List FileEntry) (h : applyLine inv ln = some inv2) :
    ∃ pre f post, inv = pre ++ f :: post ∧ f.offset = 0 ∧ f.name = ln.name ∧
      (∀ g ∈ pre, 0 < g.offset ∨ g.name ≠ ln.name) ∧
      inv2 = pre ++ updateEntry f ln :: post := by
  induction inv generalizing inv2 with
  | nil => simp [applyLine] at h
  | cons f rest ih =>
    by_cases hoff : 0 < f.offset
    · simp only [applyLine, if_pos hoff, Option.map_eq_some'] at h
      obtain ⟨rest2, hr, rfl⟩ := h
      obtain ⟨pre, g, post, rfl, hg0, hgn, hpre, rfl⟩ := ih rest2 hr
      refine ⟨f :: pre, g, post, rfl, hg0, hgn, ?_, rfl⟩
      intro x hx
      rcases List.mem_cons.mp hx with rfl | hx2
      · exact Or.inl hoff
      · exact hpre x hx2
    · by_cases hname : f.name = ln.name
      · simp only [applyLine, if_neg hoff, if_pos hname, Option.some_inj] at h
        exact ⟨[], f, rest, rfl, by omega, hname, by simp, h.symm⟩
      · simp only [applyLine, if_neg hoff, if_neg hname, Option.map_eq_some'] at h
        obtain ⟨rest2, hr, rfl⟩ := h
        obtain ⟨pre, g, post, rfl, hg0, hgn, hpre, rfl⟩ := ih rest2 hr
        refine ⟨f :: pre, g, post, rfl, hg0, hgn, ?_, rfl⟩
        intro x hx
        rcases List.mem_cons.mp hx with rfl | hx2
        · exact Or.inr hname
        · exact hpre x hx2

theorem applyLine_again_fails (inv : List FileEntry) (ln : StateLine)
    (inv2 : List FileEntry) (hpos : 0 < ln.offset)
    (hnd : (inv.map fun f => f.name).Nodup)
    (h : applyLine inv ln = some inv2) : applyLine inv2 ln = none := by
  induction inv generalizing inv2 with
  | nil => simp [applyLine] at h
  | cons f rest ih =>
    rw [List.map_cons, List.nodup_cons] at hnd
    obtain ⟨hnd1, hnd2⟩ := hnd
    by_cases hoff : 0 < f.offset
    · simp only [applyLine, if_pos hoff, Option.map_eq_some'] at h
      obtain ⟨rest2, hr, rfl⟩ := h
      simp [applyLine, hoff, ih rest2 hnd2 hr]
    · by_cases hname : f.name = ln.name
      · simp only [applyLine, if_neg hoff, if_pos hname, Option.some_inj] at h
        subst h
        have hrest : applyLine rest ln = none := by
          refine applyLine_none_of_no_match rest ln fun g hg hgn => hnd1 ?_
          rw [hname, ← hgn]
          exact List.mem_map_of_mem _ hg
        simp [applyLine, updateEntry, hpos, hrest]
      · simp only [applyLine, if_neg hoff, if_neg hname, Option.map_eq_some'] at h
        obtain ⟨rest2, hr, rfl⟩ := h
        simp [applyLine, hoff, hname, ih rest2 hnd2 hr]

/-- C3: progress is advanced only on confirmed success.  On a failed
transport send (`sendok = false`) the file entry, the session totals and
every counter are exactly unchanged and the restart flag is raised, after
which the session reconnects when neither the stop signal nor
quit-on-error is set; on a successful send the offset advances by exactly
the sent record's length and the per-file and session byte/record
counters are incremented. -/
theorem progress_only_on_success (f : FileEntry) (tot : Totals) (reclen : Nat) :
    streamStep f tot reclen false = (f, tot, true) ∧
    streamStep f tot reclen true =
      ({ name := f.name, offset := f.offset + reclen, size := f.size,
          bytecount := f.bytecount + reclen, recordcount := f.recordcount + 1 },
        { totalbytes := tot.totalbytes + reclen,
          totalrecords := tot.totalrecords + 1 },
        false) ∧
    reconnectDecision false false = true := by
  refine ⟨rfl, ?_, rfl⟩
  simp [streamStep]

/-- C4 (amended): when reading a file ends with "not SEED data" and zero
bytes of progress, the session marks the file fully consumed-but-skipped
by setting its bytecount (the completion criterion, not its offset) to
its size, raises no error, leaves the stop signal untouched, and the loop
advances to the next file instead of terminating. -/
theorem notseed_skip (f : FileEntry) (h : f.bytecount = 0) :
    fileEpilog f RetCode.notseed false false =
      ({ f with bytecount := f.size }, false, false) ∧
    afterFile false true = NextAction.advanceToNext := by
  refine ⟨?_, rfl⟩
  rw [fileEpilog, if_pos ⟨rfl, h⟩]

/-- C4 counterexample: the claim as stated says the offset is set equal
to the size; on the concrete skipped file of size 512 the code leaves the
offset at 0 and sets the bytecount instead. -/
theorem notseed_skip_offset_counterexample :
    (fileEpilog ⟨"x", 0, 512, 0, 0⟩ RetCode.notseed false false).1.offset = 0 ∧
    (fileEpilog ⟨"x", 0, 512, 0, 0⟩ RetCode.notseed false false).1.size = 512 ∧
    (fileEpilog ⟨"x", 0, 512, 0, 0⟩ RetCode.notseed false false).1.bytecount = 512 := by
  refine ⟨rfl, rfl, rfl⟩

theorem notseed_skip_witness :
    fileEpilog ⟨"y", 0, 100, 0, 0⟩ RetCode.notseed false false =
      (⟨"y", 0, 100, 100, 0⟩, false, false) ∧
    afterFile false true = NextAction.advanceToNext :=
  notseed_skip ⟨"y", 0, 100, 0, 0⟩ rfl

/-- C5: restore error discipline.  A persisted state line whose path
matches no entry of the current inventory makes `recoverstate` fail with
a hard error (wherever the line sits in the state file), before any
transfer begins; complete absence of the state file is not an error and
reports a clean cold start with the inventory untouched. -/
theorem restore_discipline (inv : List FileEntry) (pre : List StateLine)
    (ln : StateLine) (suf : List StateLine)
    (h : ∀ f ∈ inv, f.name ≠ ln.name) :
    (recoverstate (some (pre ++ ln :: suf)) inv).1 = RestoreResult.error ∧
    ∀ inv2 : List FileEntry,
      recoverstate none inv2 = (RestoreResult.nostate, inv2) := by
  refine ⟨?_, fun inv2 => rfl⟩
  have herr := applyLines_error_of_no_match pre ln suf inv h
  simp [recoverstate, herr]

theorem restore_discipline_witness :
    (recoverstate (some [⟨"b", 3, 10, 3, 1⟩]) [initEntry "a" 10]).1 =
      RestoreResult.error ∧
    recoverstate none [initEntry "a" 10] =
      (RestoreResult.nostate, [initEntry "a" 10]) :=
  ⟨(restore_discipline [initEntry "a" 10] [] ⟨"b", 3, 10, 3, 1⟩ [] (by decide)).1,
    (restore_discipline [initEntry "a" 10] [] ⟨"b", 3, 10, 3, 1⟩ []
      (by decide)).2 [initEntry "a" 10]⟩

/-- C10: completion is judged by bytecount, not offset.  `allsent` (the
predicate behind both the startup shortcut's "All data transmitted (based
on saved state)." exit and the end-of-run determination) is true exactly
when every file's bytecount equals its size; a member file whose offset
equals its size but whose bytecount differs makes it false. -/
theorem allsent_by_bytecount (inv : List FileEntry) (f : FileEntry)
    (hmem : f ∈ inv) (hoff : f.offset = f.size) (hbc : f.bytecount ≠ f.size) :
    allsent inv = false ∧
    ∀ inv2 : List FileEntry,
      (allsent inv2 = true ↔ ∀ g ∈ inv2, g.bytecount = g.size) := by
  have hiff : ∀ inv2 : List FileEntry,
      (allsent inv2 = true ↔ ∀ g ∈ inv2, g.bytecount = g.size) := by
    intro inv2
    simp [allsent]
  refine ⟨?_, hiff⟩
  rcases Bool.eq_false_or_eq_true (allsent inv) with hb | hb
  · exact absurd ((hiff inv).mp hb f hmem) hbc
  · exact hb

theorem allsent_by_bytecount_witness :
    allsent [⟨"a", 5, 5, 0, 0⟩] = false :=
  (allsent_by_bytecount [⟨"a", 5, 5, 0, 0⟩] ⟨"a", 5, 5, 0, 0⟩
    (by decide) rfl (by decide)).1

/-- C2: save atomicity.  `savestate` writes the whole inventory snapshot
(one `printfilelist` line per file) to a temporary file in the same
directory as the target and then renames it over the target: at every
interruption point (killed after any number `i` of lines written to the
temporary file) the previously committed state file is byte-for-byte
unchanged; after the rename the state file holds exactly the full
snapshot; on the early-error path nothing is touched at all; and the
temporary file's directory is the state file's directory. -/
theorem savestate_atomic (fs : FSys) (statefile : String) (inv : List FileEntry)
    (i : Nat) :
    savestateMid fs statefile inv i statefile = fs statefile ∧
    ((savestate fs statefile inv).2 = true →
      (savestate fs statefile inv).1 statefile = some (printfilelist inv)) ∧
    ((savestate fs statefile inv).2 = false → (savestate fs statefile inv).1 = fs) ∧
    dirOf (tmpName statefile) = dirOf statefile := by
  have hne : statefile ≠ tmpName statefile := (tmpName_ne statefile).symm
  refine ⟨?_, ?_, ?_, dirOf_tmpName statefile⟩
  · rw [savestateMid]
    exact FSys.write_other fs (tmpName statefile) (printfilelist (inv.take i))
      statefile hne
  · intro hok
    rw [savestate] at hok ⊢
    by_cases hg : 255 ≤ (tmpName statefile).length
    · rw [if_pos hg] at hok
      simp at hok
    · rw [if_neg hg]
      show FSys.rename (FSys.write fs (tmpName statefile) (printfilelist inv))
        (tmpName statefile) statefile statefile = some (printfilelist inv)
      rw [FSys.rename_dst _ _ _ hne]
      exact FSys.write_self fs (tmpName statefile) (printfilelist inv)
  · intro hfail
    rw [savestate] at hfail ⊢
    by_cases hg : 255 ≤ (tmpName statefile).length
    · rw [if_pos hg]
    · rw [if_neg hg] at hfail
      simp at hfail

/-- A concrete file system for the savestate witness: only the committed
state file exists. -/
def fsExample : FSys :=
  fun p => if p = "d/state" then some "prev" else none

theorem savestate_atomic_witness :
    savestateMid fsExample "d/state" [initEntry "a" 10] 0 "d/state" =
      fsExample "d/state" ∧
    (savestate fsExample "d/state" [initEntry "a" 10]).1 "d/state" =
      some (printfilelist [initEntry "a" 10]) :=
  ⟨(savestate_atomic fsExample "d/state" [initEntry "a" 10] 0).1,
    (savestate_atomic fsExample "d/state" [initEntry "a" 10] 0).2.1 (by decide)⟩

/-- C6 (amended): `recoverstate` assigns offset/bytecount/recordcount to
the first inventory entry with an exactly matching path whose offset is
still zero (first-match-wins, the characterization below); but a second
Restore on the already-updated inventory is not idempotent: a line whose
persisted offset is positive then fails with a hard error, because its
(unique) matching entry is now skipped by the offset-still-zero check. -/
theorem restore_first_match (inv : List FileEntry) (ln : StateLine)
    (inv2 : List FileEntry) (h : applyLine inv ln = some inv2) :
    (∃ pre f post, inv = pre ++ f :: post ∧ f.offset = 0 ∧ f.name = ln.name ∧
      (∀ g ∈ pre, 0 < g.offset ∨ g.name ≠ ln.name) ∧
      inv2 = pre ++ updateEntry f ln :: post) ∧
    (0 < ln.offset → (inv.map fun f => f.name).Nodup →
      applyLine inv2 ln = none) :=
  ⟨applyLine_characterization inv ln inv2 h,
    fun hpos hnd => applyLine_again_fails inv ln inv2 hpos hnd h⟩

/-- C6 counterexample: the claim as stated says a second run of Restore
on the same state file and (updated) inventory succeeds and leaves it
unchanged; with the single line ("a", offset 5) over the single fresh
entry "a" the first run succeeds but the second run returns the hard
error, because the updated entry is skipped by the offset-still-zero
check and the line then matches nothing. -/
theorem restore_not_idempotent_counterexample :
    (recoverstate (some [⟨"a", 5, 10, 5, 1⟩]) [initEntry "a" 10]).1 =
      RestoreResult.recovered ∧
    (recoverstate (some [⟨"a", 5, 10, 5, 1⟩])
        ((recoverstate (some [⟨"a", 5, 10, 5, 1⟩]) [initEntry "a" 10]).2)).1 =
      RestoreResult.error := by
  exact ⟨rfl, rfl⟩

theorem restore_first_match_witness :
    applyLine [⟨"a", 5, 10, 5, 1⟩] ⟨"a", 5, 10, 5, 1⟩ = none :=
  (restore_first_match [initEntry "a" 10] ⟨"a", 5, 10, 5, 1⟩ [⟨"a", 5, 10, 5, 1⟩]
    (by decide)).2 (by decide) (by decide)

/-- C7: sort correctness and idempotence.  `sortedirentries` outputs a
byte-wise lexicographically sorted permutation of its input (for distinct
names this is exactly the sorted sequence of those names); applying it to
an already-sorted sequence leaves it unchanged; and the merge takes equal
elements from the left run first (stability of ties). -/
theorem sortedirentries_correct (l ls : List EntryName)
    (hs : List.Sorted nameLE ls) :
    List.Sorted nameLE (sortedirentries l) ∧
    (sortedirentries l).Perm l ∧
    sortedirentries ls = ls ∧
    ∀ (x : EntryName) (xs ys : List EntryName),
      mergeRun (x :: xs) (x :: ys) = x :: mergeRun xs (x :: ys) := by
  obtain ⟨h1, h2⟩ := sortLoop_correct 1 (by omega) l (runs_one l)
  obtain ⟨h3, h4⟩ := sortLoop_correct 1 (by omega) ls (runs_one ls)
  refine ⟨h1, h2, ?_, ?_⟩
  · exact @List.eq_of_perm_of_sorted _ nameLE
      ⟨fun a b hab hba => namele_antisymm a b hab hba⟩ _ _ h4 h3 hs
  · intro x xs ys
    rw [mergeRun_cons_cons, if_pos (namele_refl x)]

instance : DecidableRel nameLE :=
  fun a b => inferInstanceAs (Decidable (namele a b = true))

theorem sortedirentries_correct_witness :
    List.Sorted nameLE [[1], [2]] ∧
    sortedirentries [[1], [2]] = [[1], [2]] :=
  ⟨by decide, (sortedirentries_correct [[2], [1]] [[1], [2]] (by decide)).2.2.1⟩

/-- C8: evaluation of the directory walk at the failing input.  With
unbounded recursion (level -1), a root directory containing an unopenable
sub-directory "bad" and a file "f": the walk returns success (0) and the
partial inventory [("f", 100)] — the recursive `adddir` call's -1 is
compared against -2 (miniseed2dmc.c:1340), a value `adddir` never
returns, so the failure is silently ignored and the walk continues.  An
unopenable root, by contrast, still aborts the whole construction. -/
theorem adddir_subdir_failure_ignored :
    addfileRoot (-1) (FsNode.dirNode "root" true
        [FsNode.dirNode "bad" false [], FsNode.fileNode "f" 100]) =
      (0, [("f", 100)]) ∧
    addfileRoot (-1) (FsNode.dirNode "root" false [FsNode.fileNode "f" 100]) =
      (-1, []) := by
  constructor
  · simp [addfileRoot, adddirM, walkEntries]
  · simp [addfileRoot, adddirM, walkEntries]

theorem string_toList_append (s t : String) : (s ++ t).toList = s.toList ++ t.toList :=
  String.data_append s t

theorem string_mk_toList (s : String) : String.mk s.toList = s := rfl

theorem splitOnPred_sepfree (p : Char → Bool) (xs ys : List Char)
    (h : ∀ c ∈ xs, p c = false) :
    splitOnPred p (xs ++ ys) =
      (xs ++ (splitOnPred p ys).1, (splitOnPred p ys).2) := by
  induction xs with
  | nil => simp
  | cons x xs ih =>
    have hx : p x = false := h x (List.mem_cons_self x xs)
    have ih2 := ih fun c hc => h c (List.mem_cons_of_mem x hc)
    simp [splitOnPred, hx, ih2]

theorem splitOnPred_sep (p : Char → Bool) (c : Char) (rest : List Char)
    (h : p c = true) :
    splitOnPred p (c :: rest) =
      ([], (splitOnPred p rest).1 :: (splitOnPred p rest).2) := by
  simp [splitOnPred, h]

theorem tokensOf_word_sep (w rest : List Char) (hne : w ≠ [])
    (hw : ∀ c ∈ w, isWhite c = false) :
    tokensOf (w ++ '\t' :: rest) = w :: tokensOf rest := by
  unfold tokensOf
  rw [splitOnPred_sepfree isWhite w ('\t' :: rest) hw,
    splitOnPred_sep isWhite '\t' rest (by decide)]
  simp [List.filter_cons, hne]

theorem tokensOf_word_end (w : List Char) (hne : w ≠ [])
    (hw : ∀ c ∈ w, isWhite c = false) :
    tokensOf w = [w] := by
  unfold tokensOf
  have h : splitOnPred isWhite w = (w, []) := by
    have h0 := splitOnPred_sepfree isWhite w [] hw
    simpa [splitOnPred] using h0
  rw [h]
  simp [List.filter_cons, hne]

theorem digitChar_isDigit : ∀ k, k < 10 → (Nat.digitChar k).isDigit = true := by
  decide

theorem digitChar_toNat : ∀ k, k < 10 → (Nat.digitChar k).toNat - 48 = k := by
  decide

theorem isDigit_not_white (c : Char) (h : c.isDigit = true) : isWhite c = false := by
  by_contra hwc
  rw [Bool.not_eq_false, isWhite] at hwc
  simp only [Bool.or_eq_true, decide_eq_true_eq] at hwc
  rcases hwc with ((((rfl | rfl) | rfl) | rfl) | rfl) | rfl <;>
    exact absurd h (by decide)

theorem isNL_false_of_not_white (c : Char) (h : isWhite c = false) :
    isNL c = false := by
  by_cases hc : c = '\n'
  · subst hc
    exact absurd h (by decide)
  · simp [isNL, hc]

theorem natDigits_ne_nil (n : Nat) : natDigits n ≠ [] := by
  rw [natDigits]
  split
  · simp
  · simp

theorem natDigits_all_digit (n : Nat) : ∀ c ∈ natDigits n, c.isDigit = true := by
  induction n using Nat.strong_induction_on with
  | _ n ih =>
    rw [natDigits]
    split
    · next h =>
      intro c hc
      rw [List.mem_singleton] at hc
      subst hc
      exact digitChar_isDigit n h
    · next h =>
      intro c hc
      rcases List.mem_append.mp hc with h1 | h1
      · exact ih (n / 10) (Nat.div_lt_self (by omega) (by omega)) c h1
      · rw [List.mem_singleton] at h1
        subst h1
        exact digitChar_isDigit (n % 10) (Nat.mod_lt n (by omega))

theorem natDigits_foldl (n : Nat) : ∀ a : Nat,
    (natDigits n).foldl (fun m c => 10 * m + (c.toNat - 48)) a =
      a * 10 ^ (natDigits n).length + n := by
  induction n using Nat.strong_induction_on with
  | _ n ih =>
    intro a
    rw [natDigits]
    split
    · next h =>
      simp only [List.foldl_cons, List.foldl_nil, List.length_singleton,
        digitChar_toNat n h]
      ring
    · next h =>
      rw [List.foldl_append, ih (n / 10) (Nat.div_lt_self (by omega) (by omega)) a]
      simp only [List.foldl_cons, List.foldl_nil, List.length_append,
        List.length_singleton, digitChar_toNat (n % 10) (Nat.mod_lt n (by omega))]
      calc 10 * (a * 10 ^ (natDigits (n / 10)).length + n / 10) + n % 10
          = a * (10 ^ (natDigits (n / 10)).length * 10) +
              (10 * (n / 10) + n % 10) := by ring
        _ = a * 10 ^ ((natDigits (n / 10)).length + 1) + n := by
            rw [← pow_succ, Nat.div_add_mod]

theorem parseNat_natDigits (n : Nat) : parseNat (natDigits n) = some n := by
  unfold parseNat
  rw [if_pos ⟨natDigits_ne_nil n,
    List.all_eq_true.mpr fun c hc => natDigits_all_digit n c hc⟩]
  rw [natDigits_foldl n 0]
  simp

theorem toDigitsCore_natDigits (fuel : Nat) : ∀ (n : Nat) (ds : List Char),
    n < fuel → Nat.toDigitsCore 10 fuel n ds = natDigits n ++ ds := by
  induction fuel with
  | zero => omega
  | succ fuel ih =>
    intro n ds hfuel
    simp only [Nat.toDigitsCore]
    by_cases h10 : n / 10 = 0
    · have hn : n < 10 := by omega
      rw [if_pos h10, natDigits, dif_pos hn, Nat.mod_eq_of_lt hn]
      simp
    · have hn : ¬ n < 10 := by omega
      have hdiv : n / 10 < n := Nat.div_lt_self (by omega) (by omega)
      rw [if_neg h10, ih (n / 10) _ (by omega)]
      conv_rhs => rw [natDigits, dif_neg hn]
      simp

theorem toString_nat_toList (n : Nat) : (toString n).toList = natDigits n := by
  have h0 : (toString n).toList = Nat.toDigitsCore 10 (n + 1) n [] := rfl
  rw [h0, toDigitsCore_natDigits (n + 1) n [] (by omega), List.append_nil]

theorem stateLineText_toList (f : FileEntry) :
    (stateLineText f).toList =
      (f.name.toList ++ '\t' :: (natDigits f.offset ++ '\t' ::
        (natDigits f.size ++ '\t' :: (natDigits f.bytecount ++ '\t' ::
          natDigits f.recordcount)))) ++ ['\n'] := by
  have ht : ("\t" : String).toList = ['\t'] := rfl
  have hn : ("\n" : String).toList = ['\n'] := rfl
  simp only [stateLineText, string_toList_append, toString_nat_toList, ht, hn]
  simp [List.append_assoc]

theorem body_not_nl (f : FileEntry)
    (hw : ∀ c ∈ f.name.toList, isWhite c = false) :
    ∀ c ∈ f.name.toList ++ '\t' :: (natDigits f.offset ++ '\t' ::
      (natDigits f.size ++ '\t' :: (natDigits f.bytecount ++ '\t' ::
        natDigits f.recordcount))), isNL c = false := by
  have hdig : ∀ (m : Nat), ∀ c ∈ natDigits m, isNL c = false := fun m c hc =>
    isNL_false_of_not_white c (isDigit_not_white c (natDigits_all_digit m c hc))
  intro c hc
  rcases List.mem_append.mp hc with h | h
  · exact isNL_false_of_not_white c (hw c h)
  rcases List.mem_cons.mp h with rfl | h
  · decide
  rcases List.mem_append.mp h with h | h
  · exact hdig _ c h
  rcases List.mem_cons.mp h with rfl | h
  · decide
  rcases List.mem_append.mp h with h | h
  · exact hdig _ c h
  rcases List.mem_cons.mp h with rfl | h
  · decide
  rcases List.mem_append.mp h with h | h
  · exact hdig _ c h
  rcases List.mem_cons.mp h with rfl | h
  · decide
  exact hdig _ c h

theorem tokensOf_body (f : FileEntry) (hne : f.name.toList ≠ [])
    (hw : ∀ c ∈ f.name.toList, isWhite c = false) :
    tokensOf (f.name.toList ++ '\t' :: (natDigits f.offset ++ '\t' ::
      (natDigits f.size ++ '\t' :: (natDigits f.bytecount ++ '\t' ::
        natDigits f.recordcount)))) =
      [f.name.toList, natDigits f.offset, natDigits f.size,
        natDigits f.bytecount, natDigits f.recordcount] := by
  have hdigw : ∀ (m : Nat), ∀ c ∈ natDigits m, isWhite c = false := fun m c hc =>
    isDigit_not_white c (natDigits_all_digit m c hc)
  rw [tokensOf_word_sep _ _ hne hw,
    tokensOf_word_sep _ _ (natDigits_ne_nil _) (hdigw _),
    tokensOf_word_sep _ _ (natDigits_ne_nil _) (hdigw _),
    tokensOf_word_sep _ _ (natDigits_ne_nil _) (hdigw _),
    tokensOf_word_end _ (natDigits_ne_nil _) (hdigw _)]

theorem parseLine_stateLine (f : FileEntry) (hne : f.name.toList ≠ [])
    (hw : ∀ c ∈ f.name.toList, isWhite c = false) :
    parseLine (f.name.toList ++ '\t' :: (natDigits f.offset ++ '\t' ::
      (natDigits f.size ++ '\t' :: (natDigits f.bytecount ++ '\t' ::
        natDigits f.recordcount)))) = some (lineOf f) := by
  unfold parseLine
  rw [tokensOf_body f hne hw]
  simp [parseNat_natDigits, lineOf, string_mk_toList]

theorem recoverstateText_single (f : FileEntry) (inv : List FileEntry)
    (hne : f.name.toList ≠ []) (hw : ∀ c ∈ f.name.toList, isWhite c = false) :
    recoverstateText (some (printfilelist [f])) inv =
      recoverstate (some [lineOf f]) inv := by
  have htext : (printfilelist [f]).toList = (stateLineText f).toList := by
    have hj : printfilelist [f] = "" ++ stateLineText f := rfl
    rw [hj, string_toList_append]
    rfl
  have hsplit : splitOnPred isNL (printfilelist [f]).toList =
      (f.name.toList ++ '\t' :: (natDigits f.offset ++ '\t' ::
        (natDigits f.size ++ '\t' :: (natDigits f.bytecount ++ '\t' ::
          natDigits f.recordcount))), [[]]) := by
    rw [htext, stateLineText_toList,
      splitOnPred_sepfree isNL _ ['\n'] (body_not_nl f hw),
      splitOnPred_sep isNL '\n' [] (by decide)]
    simp [splitOnPred]
  have hsplit2 : splitOnPred isNL (printfilelist [f]).data =
      (f.name.toList ++ '\t' :: (natDigits f.offset ++ '\t' ::
        (natDigits f.size ++ '\t' :: (natDigits f.bytecount ++ '\t' ::
          natDigits f.recordcount))), [[]]) := hsplit
  have hparse2 : parseLine (f.name.data ++ '\t' :: (natDigits f.offset ++ '\t' ::
      (natDigits f.size ++ '\t' :: (natDigits f.bytecount ++ '\t' ::
        natDigits f.recordcount)))) = some (lineOf f) := parseLine_stateLine f hne hw
  have hpnil : parseLine [] = none := rfl
  cases happ : applyLine inv (lineOf f) with
  | none =>
    simp [recoverstateText, recoverstate, hsplit2, applyParsedLines, hparse2,
      hpnil, happ, applyLines]
  | some inv2 =>
    simp [recoverstateText, recoverstate, hsplit2, applyParsedLines, hparse2,
      hpnil, happ, applyLines]

/-- C1 (amended): resume exactness for well-formed paths.  For a file
whose content is the record-length list `recs` (every record nonempty,
size `N = recs.sum`) and whose path is nonempty and free of whitespace
(so `recoverstate`'s `sscanf` parse tokenizes the saved line correctly),
splitting the transfer into two runs after `k` records — run 1 streams
the first `k` records, `savestate` writes the state file text, the
process restarts with a fresh inventory and `recoverstateText` parses
the text back — is exactly equivalent to one uninterrupted run: run 2
resumes reading at a record boundary and sends precisely the remaining
records (none re-sent, none skipped), the two runs' session totals add
up to the uninterrupted run's totals (`N` bytes in `recs.length`
records), and the file's final offset is `N` in both. -/
theorem resume_exactness (name : String) (recs : List Nat) (k : Nat)
    (hpos : ∀ r ∈ recs, 0 < r)
    (hne : name.toList ≠ []) (hw : ∀ c ∈ name.toList, isWhite c = false) :
    recordsFromOffset recs (twoRun name recs k).1.1.offset =
      some (recs.drop k) ∧
    recs.take k ++ recs.drop k = recs ∧
    (twoRun name recs k).1.2.totalbytes + (twoRun name recs k).2.2.totalbytes =
      (oneRun name recs).2.totalbytes ∧
    (twoRun name recs k).1.2.totalrecords + (twoRun name recs k).2.2.totalrecords =
      (oneRun name recs).2.totalrecords ∧
    (oneRun name recs).2.totalbytes = recs.sum ∧
    (twoRun name recs k).2.1.offset = recs.sum ∧
    (oneRun name recs).1.offset = recs.sum := by
  have hbound := recordsFromOffset_boundary recs k hpos
  have htake := streamFile_spec (initEntry name recs.sum)
    { totalbytes := 0, totalrecords := 0 } (recs.take k)
  set run1 := streamFile (initEntry name recs.sum)
    { totalbytes := 0, totalrecords := 0 } (recs.take k) with hrun1
  have e1 : (twoRun name recs k).1 = run1 := rfl
  have hname1 : run1.1.name = name := by
    rw [htake.1]
    rfl
  have hrt : recoverstateText (some (printfilelist [run1.1]))
      [initEntry name recs.sum] =
      recoverstate (some [lineOf run1.1]) [initEntry name recs.sum] := by
    apply recoverstateText_single
    · rw [hname1]
      exact hne
    · rw [hname1]
      exact hw
  have hrec : recoverstateText (some (printfilelist [run1.1]))
      [initEntry name recs.sum] =
      (RestoreResult.recovered,
        [⟨name, (recs.take k).sum, recs.sum, (recs.take k).sum,
          (recs.take k).length⟩]) := by
    rw [hrt, htake.1]
    simp [recoverstate, applyLines, applyLine, lineOf, initEntry, updateEntry]
  set f2 := ((recoverstateText (some (printfilelist [run1.1]))
    [initEntry name recs.sum]).2.headD (initEntry name recs.sum)) with hf2
  have e2 : (twoRun name recs k).2 =
      streamFile f2 { totalbytes := 0, totalrecords := 0 }
        ((recordsFromOffset recs f2.offset).getD []) := rfl
  have hf2v : f2 = ⟨name, (recs.take k).sum, recs.sum, (recs.take k).sum,
      (recs.take k).length⟩ := by
    rw [hf2, hrec]
    rfl
  have hf2off : f2.offset = (recs.take k).sum := by rw [hf2v]
  have hrest : (recordsFromOffset recs f2.offset).getD [] = recs.drop k := by
    rw [hf2off, hbound]
    rfl
  have hdrop := streamFile_spec f2 { totalbytes := 0, totalrecords := 0 }
    (recs.drop k)
  have hone := streamFile_spec (initEntry name recs.sum)
    { totalbytes := 0, totalrecords := 0 } recs
  have hsum := List.sum_take_add_sum_drop recs k
  have hlen : (recs.take k).length + (recs.drop k).length = recs.length := by
    simp [List.length_take, List.length_drop]
    omega
  have e11off : (twoRun name recs k).1.1.offset = (recs.take k).sum := by
    rw [e1, htake.1]
    simp [initEntry]
  have eone : oneRun name recs =
      streamFile (initEntry name recs.sum)
        { totalbytes := 0, totalrecords := 0 } recs := rfl
  refine ⟨?_, List.take_append_drop k recs, ?_, ?_, ?_, ?_, ?_⟩
  · rw [e11off]
    exact hbound
  · rw [e1, htake.2, e2, hrest, hdrop.2, eone, hone.2]
    simp
  · rw [e1, htake.2, e2, hrest, hdrop.2, eone, hone.2]
    simp
    omega
  · rw [eone, hone.2]
    simp
  · rw [e2, hrest, hdrop.1]
    simp [hf2off]
  · rw [eone, hone.1]
    simp [initEntry]

/-- C1 counterexample: the claim as stated quantifies over any file.
With the path "my file" — a space is legal in the state format, which
forbids only tab and newline — the saved line "my file<TAB>512..." is cut
by `sscanf`'s `%s` at the space, the numeric conversion then fails on
"file", the line is skipped as short (fields < 5), the restored offset
stays 0 and run 2 re-sends run 1's record: two runs send 1536 bytes in 3
records where one uninterrupted run sends 1024 bytes in 2 records. -/
theorem resume_exactness_counterexample :
    (twoRun "my file" [512, 512] 1).1.2.totalbytes +
        (twoRun "my file" [512, 512] 1).2.2.totalbytes = 1536 ∧
    (oneRun "my file" [512, 512]).2.totalbytes = 1024 ∧
    (twoRun "my file" [512, 512] 1).1.2.totalrecords +
        (twoRun "my file" [512, 512] 1).2.2.totalrecords = 3 ∧
    (oneRun "my file" [512, 512]).2.totalrecords = 2 := by
  refine ⟨by decide, by decide, by decide, by decide⟩

theorem resume_exactness_witness :
    recordsFromOffset [512, 256, 256] (twoRun "a" [512, 256, 256] 1).1.1.offset =
      some ([512, 256, 256].drop 1) ∧
    [512, 256, 256].take 1 ++ [512, 256, 256].drop 1 = [512, 256, 256] ∧
    (twoRun "a" [512, 256, 256] 1).1.2.totalbytes +
        (twoRun "a" [512, 256, 256] 1).2.2.totalbytes =
      (oneRun "a" [512, 256, 256]).2.totalbytes ∧
    (twoRun "a" [512, 256, 256] 1).1.2.totalrecords +
        (twoRun "a" [512, 256, 256] 1).2.2.totalrecords =
      (oneRun "a" [512, 256, 256]).2.totalrecords ∧
    (oneRun "a" [512, 256, 256]).2.totalbytes = [512, 256, 256].sum ∧
    (twoRun "a" [512, 256, 256] 1).2.1.offset = [512, 256, 256].sum ∧
    (oneRun "a" [512, 256, 256]).1.offset = [512, 256, 256].sum :=
  resume_exactness "a" [512, 256, 256] 1 (by decide) (by decide) (by decide)

/-- C9: evaluation of the rate limiter at the failing input.  With
maxrate 1000 bits/s and two 512-byte records one second apart, the very
first pre-send check computes a needed sleep of 4096/1000 - 1 = 3.096
seconds; since the code stores the whole duration in `tv_nsec` with
`tv_sec = 0` (miniseed2dmc.c:307-310), `nanosleep` receives
`tv_nsec ≥ 10^9`, fails with `EINVAL` (unchecked), and no sleep occurs —
so the session ends after 2 seconds having sent 1024 bytes, an average
of 4096 bits/s, more than four times the configured maximum, contradicting
the code's own "Sleep until within maximum rate" intent (line 304). -/
theorem throttle_sleep_einval_no_limit :
    (1 : ℚ) ≤ ((0 : ℚ) + 512) * 8 / 1000 - ((0 : ℚ) + 1) ∧
    throttleRun 1000 { elapsed := 0, totalbytes := 0 } [(512, 1), (512, 1)] =
      { elapsed := 2, totalbytes := 1024 } ∧
    1000 * (throttleRun 1000 { elapsed := 0, totalbytes := 0 }
        [(512, 1), (512, 1)]).elapsed <
      8 * (throttleRun 1000 { elapsed := 0, totalbytes := 0 }
        [(512, 1), (512, 1)]).totalbytes := by
  have h2 : throttleRun 1000 { elapsed := 0, totalbytes := 0 }
      [(512, 1), (512, 1)] = { elapsed := 2, totalbytes := 1024 } := by
    norm_num [throttleRun, throttleStep]
  refine ⟨by norm_num, h2, ?_⟩
  rw [h2]
  norm_num
